import Mathlib

set_option maxRecDepth 1000000
set_option maxHeartbeats 4000000

/-!
Verification development for the agl/ed25519 repository.

The repository contains two layers:

1. A big-integer (math/big) implementation of the full Ed25519 signature
   scheme: key generation, Sign, Verify, point encoding and decoding, and
   scalar multiplication in extended twisted Edwards coordinates.  This file
   embeds that code over the mathematical integers, which model the
   arbitrary-precision big.Int values exactly.  SHA-512 is consumed by that
   code as an external collaborator with a fully specified behaviour; it is
   embedded here as an executable function on byte lists and validated
   against the standard test vectors.

2. A limb-based edwards25519 package.  Of that package only the scalar
   multiplication file (in two coexisting variants) is part of the sources;
   the group-operation primitives it calls (geAdd, Double, the coordinate
   conversions and the conditional move) are modelled from the
   specification, over the field of integers modulo 2^255 - 19.

Byte strings are modelled as lists of natural numbers; a byte is a list
element (callers keep elements below 256, and theorems that need this
boundedness state it as a hypothesis).
-/

/-! ## Byte-string utilities -/

/-- Value of a byte list read as a little-endian natural number. -/
def leNat : List Nat → Nat
  | [] => 0
  | b :: t => b + 256 * leNat t

/-- Little-endian byte representation of a natural number, using exactly the
given number of bytes (truncating or zero-padding as needed). -/
def leBytes : Nat → Nat → List Nat
  | _, 0 => []
  | n, l + 1 => n % 256 :: leBytes (n / 256) l

/-- Minimal big-endian byte representation of a natural number below 2^264
(empty for zero).  This models the Bytes method of a non-negative big.Int. -/
def natToBEBytes (n : Nat) : List Nat :=
  ((leBytes n 33).reverse).dropWhile (fun b => b = 0)

/-- Fuel-driven binary modular exponentiation, used to model the Exp method
of big.Int with a positive modulus. -/
def powModAux : Nat → Nat → Nat → Nat → Nat
  | 0, _, _, m => 1 % m
  | fuel + 1, b, e, m =>
    if e = 0 then 1 % m
    else
      let r := powModAux fuel b (e / 2) m
      let r2 := r * r % m
      if e % 2 = 1 then r2 * b % m else r2

/-- Modular exponentiation with enough fuel for any exponent below 2^520. -/
def powMod (b e m : Nat) : Nat := powModAux 520 (b % m) e m

/-- Split a list into consecutive chunks of the given size. -/
def chunksAux : Nat → Nat → List Nat → List (List Nat)
  | 0, _, _ => []
  | _, _, [] => []
  | fuel + 1, sz, l => l.take sz :: chunksAux fuel sz (l.drop sz)

/-- All consecutive chunks of the given size of a byte list. -/
def chunks (sz : Nat) (l : List Nat) : List (List Nat) := chunksAux l.length sz l

/-! ## SHA-512

The ed25519 code consumes SHA-512 from the standard library.  The function
is embedded here directly from FIPS 180-4 (64-bit words are natural numbers
kept below 2^64 by explicit reduction), and validated below against the
standard digests of the empty message and of the three-byte message abc. -/

/-- 2^64, the word modulus of SHA-512. -/
def w64 : Nat := 18446744073709551616

/-- Right rotation of a 64-bit word. -/
def rotr (n x : Nat) : Nat := ((x >>> n) ||| (x <<< (64 - n))) % w64

/-- Big Sigma 0 of SHA-512. -/
def bsig0 (x : Nat) : Nat := (rotr 28 x) ^^^ (rotr 34 x) ^^^ (rotr 39 x)

/-- Big Sigma 1 of SHA-512. -/
def bsig1 (x : Nat) : Nat := (rotr 14 x) ^^^ (rotr 18 x) ^^^ (rotr 41 x)

/-- Small sigma 0 of SHA-512. -/
def ssig0 (x : Nat) : Nat := (rotr 1 x) ^^^ (rotr 8 x) ^^^ (x >>> 7)

/-- Small sigma 1 of SHA-512. -/
def ssig1 (x : Nat) : Nat := (rotr 19 x) ^^^ (rotr 61 x) ^^^ (x >>> 6)

/-- The choice function of SHA-512; complement is XOR with the 64-bit mask. -/
def chF (x y z : Nat) : Nat := (x &&& y) ^^^ ((x ^^^ (w64 - 1)) &&& z)

/-- The majority function of SHA-512. -/
def majF (x y z : Nat) : Nat := (x &&& y) ^^^ (x &&& z) ^^^ (y &&& z)

/-- The eighty round constants of SHA-512. -/
def sha512K : List Nat := [
  4794697086780616226, 8158064640168781261, 13096744586834688815, 16840607885511220156,
  4131703408338449720, 6480981068601479193, 10538285296894168987, 12329834152419229976,
  15566598209576043074, 1334009975649890238, 2608012711638119052, 6128411473006802146,
  8268148722764581231, 9286055187155687089, 11230858885718282805, 13951009754708518548,
  16472876342353939154, 17275323862435702243, 1135362057144423861, 2597628984639134821,
  3308224258029322869, 5365058923640841347, 6679025012923562964, 8573033837759648693,
  10970295158949994411, 12119686244451234320, 12683024718118986047, 13788192230050041572,
  14330467153632333762, 15395433587784984357, 489312712824947311, 1452737877330783856,
  2861767655752347644, 3322285676063803686, 5560940570517711597, 5996557281743188959,
  7280758554555802590, 8532644243296465576, 9350256976987008742, 10552545826968843579,
  11727347734174303076, 12113106623233404929, 14000437183269869457, 14369950271660146224,
  15101387698204529176, 15463397548674623760, 17586052441742319658, 1182934255886127544,
  1847814050463011016, 2177327727835720531, 2830643537854262169, 3796741975233480872,
  4115178125766777443, 5681478168544905931, 6601373596472566643, 7507060721942968483,
  8399075790359081724, 8693463985226723168, 9568029438360202098, 10144078919501101548,
  10430055236837252648, 11840083180663258601, 13761210420658862357, 14299343276471374635,
  14566680578165727644, 15097957966210449927, 16922976911328602910, 17689382322260857208,
  500013540394364858, 748580250866718886, 1242879168328830382, 1977374033974150939,
  2944078676154940804, 3659926193048069267, 4368137639120453308, 4836135668995329356,
  5532061633213252278, 6448918945643986474, 6902733635092675308, 7801388544844847127]

/-- SHA-512 message padding: append the byte 128, then zeros, then the bit
length as a 16-byte big-endian number, reaching a multiple of 128 bytes. -/
def padMsg (msg : List Nat) : List Nat :=
  let l := msg.length
  let zeros := (128 - (l + 17) % 128) % 128
  msg ++ 128 :: List.replicate zeros 0 ++ (leBytes (8 * l) 16).reverse

/-- Value of a byte list read as a big-endian number. -/
def beWord (bytes : List Nat) : Nat := bytes.foldl (fun a b => a * 256 + b) 0

/-- One step of the SHA-512 message-schedule extension. -/
def schedStep (w : List Nat) : List Nat :=
  w ++ [(ssig1 (w.getD (w.length - 2) 0) + w.getD (w.length - 7) 0 +
         ssig0 (w.getD (w.length - 15) 0) + w.getD (w.length - 16) 0) % w64]

/-- Extension of the sixteen message words to the eighty schedule words. -/
def schedule (w : List Nat) : List Nat := (List.range 64).foldl (fun w _ => schedStep w) w

/-- The eight working variables of the SHA-512 compression function. -/
structure Hash8 where
  a : Nat
  b : Nat
  c : Nat
  d : Nat
  e : Nat
  f : Nat
  g : Nat
  h : Nat
deriving DecidableEq

/-- One round of the SHA-512 compression function. -/
def compressStep (st : Hash8) (kw : Nat × Nat) : Hash8 :=
  let t1 := (st.h + bsig1 st.e + chF st.e st.f st.g + kw.1 + kw.2) % w64
  let t2 := (bsig0 st.a + majF st.a st.b st.c) % w64
  ⟨(t1 + t2) % w64, st.a, st.b, st.c, (st.d + t1) % w64, st.e, st.f, st.g⟩

/-- Processing of one 128-byte block: eighty rounds, then the feed-forward
addition into the chaining state. -/
def compressBlock (st : Hash8) (block : List Nat) : Hash8 :=
  let w := schedule ((chunks 8 block).map beWord)
  let r := (sha512K.zip w).foldl compressStep st
  ⟨(st.a + r.a) % w64, (st.b + r.b) % w64, (st.c + r.c) % w64, (st.d + r.d) % w64,
   (st.e + r.e) % w64, (st.f + r.f) % w64, (st.g + r.g) % w64, (st.h + r.h) % w64⟩

/-- The initial SHA-512 chaining value. -/
def sha512IV : Hash8 :=
  ⟨7640891576956012808, 13503953896175478587, 4354685564936845355, 11912009170470909681,
   5840696475078001361, 11170449401992604703, 2270897969802886507, 6620516959819538809⟩

/-- The SHA-512 digest (64 bytes) of a byte list. -/
def sha512 (msg : List Nat) : List Nat :=
  let st := (chunks 128 (padMsg msg)).foldl compressBlock sha512IV
  ([st.a, st.b, st.c, st.d, st.e, st.f, st.g, st.h].map (fun x => (leBytes x 8).reverse)).flatten

/-! ## The big-integer ed25519 implementation (the unnamed source file)

Every big.Int value is modelled as a mathematical integer; the Mod method of
big.Int with a positive modulus returns the representative in the interval
from 0 inclusive to the modulus exclusive, which is the emod operation on
integers.  Byte strings stay lists of natural numbers. -/

namespace Ed25519

/-- The field prime 2^255 - 19 (source constant p25519). -/
def p25519 : Int := 57896044618658097711785492504343953926634992332820282019728792003956564819949

/-- The prime as a natural number, for exponents and byte bounds. -/
def pN : Nat := 57896044618658097711785492504343953926634992332820282019728792003956564819949

/-- p - 2, the inversion exponent (source constant n25521). -/
def n25521 : Nat := 57896044618658097711785492504343953926634992332820282019728792003956564819947

/-- The exponent (p - 5) / 8 = 2^252 - 3 used in square-root extraction
(source constant n2523). -/
def n2523 : Nat := 7237005577332262213973186563042994240829374041602535252466099000494570602493

/-- A square root of -1 modulo p (source constant sqrtm1). -/
def sqrtm1 : Int := 19681161376707505956807079304988542015446066515923890162744021073123829784752

/-- The group order, 2^252 + 27742317777372353535851937790883648493
(source constant order). -/
def order : Int := 7237005577332262213973186563042994240857116359379907606001950938285454250989

/-- The group order as a natural number. -/
def orderN : Nat := 7237005577332262213973186563042994240857116359379907606001950938285454250989

/-- The curve parameter d = -121665/121666 modulo p (source constant d). -/
def d : Int := 37095705934669439343138083508754565189542113879843219016388785533085940283555

/-- The constant 2d modulo p (source constant k). -/
def k : Int := 16295367250680780974490674513165176452449235426866156013048779062215315747161

/-- Base point x-coordinate (source constant bX). -/
def bX : Int := 15112221349535400772501151409588531511454012693041857206046113283949847762202

/-- Base point y-coordinate (source constant bY). -/
def bY : Int := 46316835694926478169428394003475163141307993866256225615783033603165251855960

/-- Modular exponentiation of a non-negative big.Int base (the Exp method
with positive modulus); every call site of Exp in the source has a
non-negative base. -/
def intExpMod (b : Int) (e : Nat) (m : Nat) : Int :=
  (powMod (b % (m : Int)).toNat e m : Nat)

/-- invert computes the inverse modulo p by raising to the power p - 2
(source function invert, lines 115 to 117). -/
def invert (a : Int) : Int := intExpMod a n25521 pN

/-- A point of the curve in extended coordinates; all four components are
big.Int values (source type fieldElement, lines 165 to 167). -/
structure fieldElement where
  x : Int
  y : Int
  z : Int
  t : Int
deriving DecidableEq

/-- toAffine converts extended coordinates to affine coordinates by
inverting z (source method toAffine, lines 179 to 187). -/
def toAffine (fe : fieldElement) : Int × Int :=
  let zInv := invert fe.z
  (zInv * fe.x % p25519, zInv * fe.y % p25519)

/-- pointAdd adds two curve points with the add-2008-hwcd-3 formulas,
mirroring the source line by line: subtractions are followed by a
conditional addition of p when negative, products are reduced modulo p only
where the source reduces them (source method pointAdd, lines 191 to 233). -/
def pointAdd (a b : fieldElement) : fieldElement :=
  let t1 := a.y - a.x
  let t1 := if t1 < 0 then t1 + p25519 else t1
  let t2 := b.y - b.x
  let t2 := if t2 < 0 then t2 + p25519 else t2
  let t1 := t1 * t2
  let t2 := a.y + a.x
  let t3 := b.y + b.x
  let t2 := t2 * t3
  let t3 := a.t * b.t * k
  let t4 := a.z * b.z * 2
  let t5 := t2 - t1
  let t5 := if t5 < 0 then t5 + p25519 else t5
  let t6 := t4 - t3
  let t6 := if t6 < 0 then t6 + p25519 else t6
  let t7 := t4 + t3
  let t8 := t1 + t2
  ⟨t5 * t6 % p25519, t7 * t8 % p25519, t6 * t7 % p25519, t5 * t8 % p25519⟩

/-- One iteration of the inner bit loop of scalarMult: double the
accumulator, add the multiplied point if the top bit of the shifted byte
is set, then shift the byte (source lines 251 to 257). -/
def smInner (pp : fieldElement) (st : fieldElement × Nat) : fieldElement × Nat :=
  let n1 := pointAdd st.1 st.1
  let n2 := if st.2 &&& 128 ≠ 0 then pointAdd n1 pp else n1
  (n2, st.2 * 2 % 256)

/-- Processing of one scalar byte: eight iterations of the inner loop. -/
def smByte (pp : fieldElement) (n : fieldElement) (xb : Nat) : fieldElement :=
  ((List.range 8).foldl (fun st _ => smInner pp st) (n, xb)).1

/-- The byte loop of scalarMult over an explicit byte list. -/
def smFold (bytes : List Nat) (pp n : fieldElement) : fieldElement :=
  bytes.foldl (smByte pp) n

/-- scalarMult computes scalar times the affine point (px, py) in extended
coordinates, scanning the minimal big-endian byte string of the scalar,
each byte from its most significant bit down (source method scalarMult,
lines 237 to 261). -/
def scalarMult (scalar px py : Int) : fieldElement :=
  smFold (natToBEBytes scalar.toNat) ⟨px, py, 1, px * py⟩ ⟨0, 1, 1, 0⟩

/-- encodePoint writes the y coordinate as 32 little-endian bytes and sets
the top bit of the last byte to the parity of x (source function
encodePoint, lines 266 to 274).  Call sites pass the reduced affine
coordinates, so y fits in 255 bits. -/
def encodePoint (px py : Int) : List Nat :=
  let b := leBytes py.toNat 32
  if px % 2 = 1 then b.set 31 (b.getD 31 0 ||| 128) else b

/-- scalarFrom64Bytes reads 64 little-endian bytes and reduces modulo the
group order (source function scalarFrom64Bytes, lines 278 to 288). -/
def scalarFrom64Bytes (v : List Nat) : Int := (leNat v : Int) % order

/-- scalarFrom32Bytes reads 32 little-endian bytes and reduces modulo the
group order (source function scalarFrom32Bytes, lines 292 to 302). -/
def scalarFrom32Bytes (v : List Nat) : Int := (leNat v : Int) % order

/-- encodeScalar writes a reduced scalar as 32 little-endian bytes (source
function encodeScalar, lines 305 to 310; the call site writes into a fresh
zeroed 32-byte suffix). -/
def encodeScalar (s : Int) : List Nat := leBytes s.toNat 32

/-- The clamping of the lower half of the secret digest: clear the three low
bits of byte 0, clear the top bit and set the next bit of byte 31 (source
lines 319 to 321 and 151 to 153). -/
def clampDigest (dg : List Nat) : List Nat :=
  let d1 := dg.set 0 (dg.getD 0 0 &&& 248)
  d1.set 31 ((d1.getD 31 0 &&& 127) ||| 64)

/-- Sign produces the 64-byte signature of a message under a 64-byte
private key (source function Sign, lines 313 to 348). -/
def Sign (privateKey message : List Nat) : List Nat :=
  let digest := sha512 (List.take 32 privateKey)
  let expandedSecretKey := clampDigest digest
  let a := scalarFrom32Bytes (List.take 32 expandedSecretKey)
  let messageDigest := sha512 (List.drop 32 expandedSecretKey ++ message)
  let r := scalarFrom64Bytes messageDigest
  let R := toAffine (scalarMult r bX bY)
  let encodedR := encodePoint R.1 R.2
  let hramDigest := sha512 (encodedR ++ List.drop 32 privateKey ++ message)
  let s := scalarFrom64Bytes hramDigest
  encodedR ++ encodeScalar ((s * a + r) % order)

/-- GenerateKey derives the key pair from the 32 random seed bytes read from
the randomness source (source function GenerateKey, lines 139 to 160, after
the read of the seed has succeeded). -/
def generateKeyFromSeed (seed : List Nat) : List Nat × List Nat :=
  let digest := clampDigest (sha512 (List.take 32 seed))
  let a := scalarFrom32Bytes (List.take 32 digest)
  let A := toAffine (scalarMult a bX bY)
  let publicKey := encodePoint A.1 A.2
  (publicKey, List.take 32 seed ++ publicKey)

/-- The 255-bit y value read by decodePoint: all of the first 31 bytes and
the last byte with its top bit masked off (source lines 353 to 358). -/
def decodeY (inb : List Nat) : Nat :=
  leNat (List.take 31 inb) + (inb.getD 31 0 &&& 127) * 256 ^ 31

/-- The sign bit read by decodePoint from the top of the last byte. -/
def signBit (inb : List Nat) : Nat := inb.getD 31 0 >>> 7

/-- The square-root candidate computation of decodePoint, starting from
u0 = y * y mod p (source lines 360 to 392): compute u = u0 - 1 and
v = d u0 + 1, the candidate root b of u / v, and the verification value
b * b * v mod p, retrying with b * sqrtm1 when the first verification
fails.  Products are reduced modulo p exactly where the source reduces
them.  Returns (b, check, u). -/
def decodeBC (u0 : Int) : Int × Int × Int :=
  let u := u0 - 1
  let u := if u < 0 then u + p25519 else u
  let v := (u0 * d + 1) % p25519
  let v2 := v * v
  let v3 := v2 * v % p25519
  let v4 := v2 * v2
  let v7 := v4 * v3
  let b := v7 * u % p25519
  let b := intExpMod b n2523 pN
  let b := b * v3 * u % p25519
  let check := b * b * v % p25519
  if check = u then (b, check, u)
  else
    let b2 := b * sqrtm1 % p25519
    (b2, b2 * b2 * v % p25519, u)

/-- The final acceptance test and sign adjustment of decodePoint (source
lines 394 to 403): fail when the verification value differs from u,
otherwise negate the root when its parity differs from the sign bit. -/
def decodeAux (u0 : Int) (sign : Nat) : Option Int :=
  let bc := decodeBC u0
  if bc.2.1 ≠ bc.2.2 then none
  else some (if (bc.1 % 2).toNat ≠ sign then -bc.1 + p25519 else bc.1)

/-- The 32-byte encoding with the top bit of its last byte flipped, as
formed by the tests (pk2 at index 31 XOR 128). -/
def flipSign (inb : List Nat) : List Nat := inb.set 31 (inb.getD 31 0 ^^^ 128)

/-- decodePoint unpacks a 32-byte encoding into affine coordinates, or
fails when the square-root extraction fails (source function decodePoint,
lines 352 to 404).  The returned y is the raw 255-bit value; no comparison
of y with p occurs anywhere in the function. -/
def decodePoint (inb : List Nat) : Option (Int × Int) :=
  let y : Int := (decodeY inb : Nat)
  (decodeAux (y * y % p25519) (signBit inb)).map (fun x => (x, y))

/-- The negation of the x and t components applied by Verify to the decoded
public-key multiple (source lines 424 to 427): each component c of a
reduced point is replaced by -c + p. -/
def negXT (fe : fieldElement) : fieldElement :=
  ⟨-fe.x + p25519, fe.y, fe.z, -fe.t + p25519⟩

/-- Verify checks a 64-byte signature of a message under a 32-byte public
key (source function Verify, lines 407 to 435). -/
def Verify (publicKey message sig : List Nat) : Bool :=
  let digest := sha512 (List.take 32 sig ++ publicKey ++ message)
  let H := scalarFrom64Bytes digest
  let S := scalarFrom32Bytes (List.drop 32 sig)
  match decodePoint publicKey with
  | none => false
  | some (Ax, Ay) =>
    let SB := scalarMult S bX bY
    let HRAMA := negXT (scalarMult H Ax Ay)
    let o := pointAdd SB HRAMA
    let P := toAffine o
    decide (List.take 32 sig = encodePoint P.1 P.2)

end Ed25519

/-! ## The edwards25519 package

Of this package the sources contain the scalar multiplication file in two
coexisting variants (one of them in the unnamed file), the conditional-move
declaration, and tests.  The group-element types and primitive operations
they call live in the code file that is absent from the sources, so they
are modelled from the specification: field elements are residues modulo
2^255 - 19, and every primitive operation has the formula the specification
gives for it. -/

namespace Edwards25519

/-- Modelled from the spec: field elements of the absent field-arithmetic
file represent residues modulo p = 2^255 - 19; each operation computes the
mathematical result modulo p (specification sections 3 and 4.1). -/
abbrev F : Type := ZMod Ed25519.pN

/-- Modelled from the spec: the curve parameter d (specification section 6,
canonical constant). -/
def dF : F := 37095705934669439343138083508754565189542113879843219016388785533085940283555

/-- Modelled from the spec: a point in extended coordinates with x = X/Z,
y = Y/Z, T = XY/Z (specification section 3). -/
structure ExtendedGroupElement where
  X : F
  Y : F
  Z : F
  T : F
deriving DecidableEq

/-- Modelled from the spec: the cached form (Y+X, Y-X, Z, 2dT) of a point
(specification section 3). -/
structure CachedGroupElement where
  yPlusX : F
  yMinusX : F
  Z : F
  T2d : F
deriving DecidableEq

/-- Modelled from the spec: the completed form, the intermediate output of
addition and doubling, with x = X/Z and y = Y/T (specification section 3). -/
structure CompletedGroupElement where
  X : F
  Y : F
  Z : F
  T : F
deriving DecidableEq

/-- Modelled from the spec: the identity point (0, 1, 1, 0) in extended
coordinates (specification section 3; source method Zero). -/
def Zero : ExtendedGroupElement := ⟨0, 1, 1, 0⟩

/-- Modelled from the spec: the conversion Extended to Cached, computing
(Y+X, Y-X, Z, 2dT) (specification section 4.2; source method ToCached). -/
def ToCached (p : ExtendedGroupElement) : CachedGroupElement :=
  ⟨p.Y + p.X, p.Y - p.X, p.Z, 2 * dF * p.T⟩

/-- Modelled from the spec: the conversion Completed to Extended, computing
(XT, YZ, ZT, XY) (specification section 4.2; source method ToExtended). -/
def ToExtended (c : CompletedGroupElement) : ExtendedGroupElement :=
  ⟨c.X * c.T, c.Y * c.Z, c.Z * c.T, c.X * c.Y⟩

/-- Modelled from the spec: the addition Extended plus Cached giving
Completed, with A = (Y1-X1)(Y2-X2), B = (Y1+X1)(Y2+X2), C = T1(2dT2),
D = 2 Z1 Z2, E = B-A, F = D-C, G = D+C, H = B+A (specification section
4.3).  The completed result is (E, H, G, F): composing with the Completed
to Extended conversion yields (EF, GH, FG, EH), the extended-coordinate
tuple the specification displays for the addition. -/
def geAdd (p : ExtendedGroupElement) (q : CachedGroupElement) : CompletedGroupElement :=
  let A := (p.Y - p.X) * q.yMinusX
  let B := (p.Y + p.X) * q.yPlusX
  let C := q.T2d * p.T
  let D := 2 * p.Z * q.Z
  let E := B - A
  let Ff := D - C
  let G := D + C
  let H := B + A
  ⟨E, H, G, Ff⟩

/-- Modelled from the spec: the doubling with the dbl-2008-hwcd formula for
the twisted Edwards curve with a = -1 (specification section 4.3; the
formula is independent of the T coordinate; source method Double). -/
def Double (p : ExtendedGroupElement) : CompletedGroupElement :=
  let A := p.X * p.X
  let B := p.Y * p.Y
  let C := 2 * (p.Z * p.Z)
  let D := -A
  let E := (p.X + p.Y) * (p.X + p.Y) - A - B
  let G := D + B
  let Ff := G - C
  let H := D - B
  ⟨E, H, G, Ff⟩

/-- ExtendedGroupElementCMove replaces t by u when the flag is 1 and leaves
it unchanged when the flag is 0 (source file scalarmult.go, lines 14 to 19,
with the FeCMove semantics declared in cmove_decl.go). -/
def ExtendedGroupElementCMove (t u : ExtendedGroupElement) (b : Nat) : ExtendedGroupElement :=
  if b = 1 then u else t

/-- The bits of one scalar byte in the order the ScalarMult loop reads
them: the loop variable bitNum runs from 8 down to 1 and the condition bit
is the byte shifted right by 8 - bitNum and masked by 1, so the shift
amounts are 0, 1, up to 7 in that order; the low bit of the byte comes
first (source file scalarmult.go, lines 35 and 40). -/
def bitsOfByte (b : Nat) : List Nat := (List.range 8).map fun i => (b >>> i) &&& 1

/-- One iteration of the ScalarMult bit loop on the state (out, tmpP):
cache tmpP, add it to out, convert to extended form, conditionally move
the sum into out under the current bit, then double tmpP (source file
scalarmult.go, lines 36 to 44; the unnamed variant is identical up to
local variable names). -/
def bitStep (st : ExtendedGroupElement × ExtendedGroupElement) (bit : Nat) :
    ExtendedGroupElement × ExtendedGroupElement :=
  let out := st.1
  let tmpP := st.2
  let cach := ToCached tmpP
  let comp := geAdd out cach
  let e := ToExtended comp
  let out := ExtendedGroupElementCMove out e bit
  let comp := Double tmpP
  let tmpP := ToExtended comp
  (out, tmpP)

/-- Processing of one scalar byte of ScalarMult: the eight bits of the byte
in low-to-high order. -/
def byteStep (st : ExtendedGroupElement × ExtendedGroupElement) (b : Nat) :
    ExtendedGroupElement × ExtendedGroupElement :=
  (bitsOfByte b).foldl bitStep st

/-- ScalarMult sets out to k times P for the little-endian 32-byte scalar
k: the accumulator starts at the identity and the byte loop runs over the
bytes of k in index order (source file scalarmult.go, lines 26 to 46; the
unnamed variant, lines 27 to 48, is identical up to local variable
names). -/
def ScalarMult (k : List Nat) (p : ExtendedGroupElement) : ExtendedGroupElement :=
  (k.foldl byteStep (Zero, p)).1

/-- DoubleScalarMult of the named scalarmult.go: two ScalarMult calls, then
the combining addition of the two results (source file scalarmult.go,
lines 48 to 62). -/
def DoubleScalarMult (k : List Nat) (p : ExtendedGroupElement)
    (l : List Nat) (q : ExtendedGroupElement) : ExtendedGroupElement :=
  let res1 := ScalarMult k p
  let res2 := ScalarMult l q
  ToExtended (geAdd res1 (ToCached res2))

/-- One iteration of the interleaved DoubleScalarMult bit loop, in source
order: the P-side add and conditional move, the Q-side add and conditional
move, then the two doublings (unnamed scalarmult variant, lines 63 to
83). -/
def dsmBitStep
    (st : (ExtendedGroupElement × ExtendedGroupElement) ×
          (ExtendedGroupElement × ExtendedGroupElement))
    (bits : Nat × Nat) :
    (ExtendedGroupElement × ExtendedGroupElement) ×
    (ExtendedGroupElement × ExtendedGroupElement) :=
  let out := st.1.1
  let tmpP := st.1.2
  let out2 := st.2.1
  let tmpQ := st.2.2
  let cach := ToCached tmpP
  let comp := geAdd out cach
  let e := ToExtended comp
  let out := ExtendedGroupElementCMove out e bits.1
  let cach := ToCached tmpQ
  let comp := geAdd out2 cach
  let e := ToExtended comp
  let out2 := ExtendedGroupElementCMove out2 e bits.2
  let comp := Double tmpP
  let tmpP := ToExtended comp
  let comp := Double tmpQ
  let tmpQ := ToExtended comp
  ((out, tmpP), (out2, tmpQ))

/-- Processing of one byte pair of the interleaved DoubleScalarMult: the
eight bit pairs of the two bytes in low-to-high order. -/
def dsmByteStep
    (st : (ExtendedGroupElement × ExtendedGroupElement) ×
          (ExtendedGroupElement × ExtendedGroupElement))
    (bp : Nat × Nat) :
    (ExtendedGroupElement × ExtendedGroupElement) ×
    (ExtendedGroupElement × ExtendedGroupElement) :=
  ((bitsOfByte bp.1).zip (bitsOfByte bp.2)).foldl dsmBitStep st

/-- DoubleScalarMult of the unnamed scalarmult variant: one shared bit loop
interleaving the two accumulators, then the final combining addition
(unnamed scalarmult variant, lines 50 to 92; the loop reads byte number
bix of k together with byte number bix of l). -/
def DoubleScalarMultInterleaved (k : List Nat) (p : ExtendedGroupElement)
    (l : List Nat) (q : ExtendedGroupElement) : ExtendedGroupElement :=
  let st := (k.zip l).foldl dsmByteStep ((Zero, p), (Zero, q))
  ToExtended (geAdd st.1.1 (ToCached st.2.1))

/-- The operation counters and the conditional-move condition trace of one
ScalarMult call. -/
structure OpTrace where
  adds : Nat
  doubles : Nat
  cmoves : Nat
  bits : List Nat
deriving DecidableEq

/-- The instrumented bit step: the same state transformation as bitStep,
recording that each iteration performs exactly one geAdd, one Double and
one conditional move, whose condition bit is appended to the trace. -/
def bitStepT (st : (ExtendedGroupElement × ExtendedGroupElement) × OpTrace) (bit : Nat) :
    (ExtendedGroupElement × ExtendedGroupElement) × OpTrace :=
  (bitStep st.1 bit, ⟨st.2.adds + 1, st.2.doubles + 1, st.2.cmoves + 1, st.2.bits ++ [bit]⟩)

/-- The instrumented byte step of ScalarMult. -/
def byteStepT (st : (ExtendedGroupElement × ExtendedGroupElement) × OpTrace) (b : Nat) :
    (ExtendedGroupElement × ExtendedGroupElement) × OpTrace :=
  (bitsOfByte b).foldl bitStepT st

/-- ScalarMult with operation counting and condition tracing. -/
def ScalarMultTraced (k : List Nat) (p : ExtendedGroupElement) :
    (ExtendedGroupElement × ExtendedGroupElement) × OpTrace :=
  k.foldl byteStepT ((Zero, p), ⟨0, 0, 0, []⟩)

end Edwards25519

/-! ## Concrete inputs used by witnesses and counterexamples

The key pair is derived from the seed of 32 bytes 66; sig0 is the
signature of the empty message under it, and sigM is sig0 with the group
order added to the scalar half (still 32 bytes, as the sum stays below
2^253). -/

/-- The public key derived from the seed of 32 bytes 66. -/
def pk0 : List Nat := [33, 82, 248, 209, 155, 121, 29, 36, 69, 50, 66, 225, 95, 46, 171, 108, 183, 207, 250, 123, 106, 94, 211, 0, 151, 150, 14, 6, 152, 129, 219, 18]

/-- The signature of the empty message under that key. -/
def sig0 : List Nat := [63, 159, 49, 71, 208, 221, 21, 159, 51, 76, 184, 0, 67, 90, 228, 154, 40, 55, 173, 174, 94, 107, 35, 148, 144, 110, 220, 44, 254, 216, 41, 120, 94, 61, 209, 134, 235, 47, 237, 19, 25, 160, 69, 25, 23, 203, 102, 23, 252, 190, 147, 130, 224, 209, 52, 62, 181, 255, 212, 169, 162, 221, 130, 12]

/-- The same signature with the group order added to its scalar half. -/
def sigM : List Nat := [63, 159, 49, 71, 208, 221, 21, 159, 51, 76, 184, 0, 67, 90, 228, 154, 40, 55, 173, 174, 94, 107, 35, 148, 144, 110, 220, 44, 254, 216, 41, 120, 75, 17, 199, 227, 5, 147, 255, 107, 239, 60, 61, 188, 245, 196, 69, 44, 252, 190, 147, 130, 224, 209, 52, 62, 181, 255, 212, 169, 162, 221, 130, 28]

/-- The x coordinate of the decoded public key pk0. -/
def Ax0 : Int := 40948657045349218468501020574654940819910412829871162799113629163159836726840

/-- The y coordinate of the decoded public key pk0. -/
def Ay0 : Int := 8529465205513765553055618252391314173938925825097410703462689555639480898081

/-! ## Validation of the SHA-512 embedding -/

/-- Validation of the SHA-512 embedding: digest of the empty message. -/
theorem sha512_vector_empty : sha512 [] = [207, 131, 225, 53, 126, 239, 184, 189,
    241, 84, 40, 80, 214, 109, 128, 7, 214, 32, 228, 5, 11, 87, 21, 220,
    131, 244, 169, 33, 211, 108, 233, 206, 71, 208, 209, 60, 93, 133, 242, 176,
    255, 131, 24, 210, 135, 126, 236, 47, 99, 185, 49, 189, 71, 65, 122, 129,
    165, 56, 50, 122, 249, 39, 218, 62] := by decide!

/-- Validation of the SHA-512 embedding: digest of the message abc. -/
theorem sha512_vector_abc : sha512 [97, 98, 99] = [221, 175, 53, 161, 147, 97, 122, 186,
    204, 65, 115, 73, 174, 32, 65, 49, 18, 230, 250, 78, 137, 169, 126, 162,
    10, 158, 238, 230, 75, 85, 211, 154, 33, 146, 153, 42, 39, 79, 193, 168,
    54, 186, 60, 35, 163, 254, 235, 189, 69, 77, 68, 35, 100, 60, 232, 14,
    42, 154, 201, 79, 165, 76, 164, 159] := by decide!

/-! ## Generic fold lemmas -/

open Edwards25519

/-- A fold of a pairwise-acting step over a zip equals the pair of the two
component folds, for lists of equal length. -/
theorem zip_foldl_pair {α β γ δ : Type} (f : α → γ → α) (g : β → δ → β)
    (F : α × β → γ × δ → α × β)
    (hF : ∀ a b c dd, F (a, b) (c, dd) = (f a c, g b dd))
    (l1 : List γ) : ∀ (l2 : List δ), l1.length = l2.length → ∀ (a : α) (b : β),
    (l1.zip l2).foldl F (a, b) = (l1.foldl f a, l2.foldl g b) := by
  induction l1 with
  | nil =>
    intro l2 h a b
    cases l2 with
    | nil => simp
    | cons dd t2 => simp at h
  | cons c t ih =>
    intro l2 h a b
    cases l2 with
    | nil => simp at h
    | cons dd t2 =>
      simp only [List.zip_cons_cons, List.foldl_cons, hF]
      exact ih t2 (by simpa using h) (f a c) (g b dd)

/-- One interleaved bit iteration acts on the two accumulator pairs
independently, as the P and Q data flows are disjoint. -/
theorem dsmBitStep_pair (s1 s2 : ExtendedGroupElement × ExtendedGroupElement)
    (b1 b2 : Nat) : dsmBitStep (s1, s2) (b1, b2) = (bitStep s1 b1, bitStep s2 b2) := rfl

/-- One interleaved byte iteration equals the pair of the two independent
byte iterations. -/
theorem dsmByteStep_pair (s1 s2 : ExtendedGroupElement × ExtendedGroupElement)
    (bp : Nat × Nat) : dsmByteStep (s1, s2) bp = (byteStep s1 bp.1, byteStep s2 bp.2) := by
  unfold dsmByteStep byteStep
  exact zip_foldl_pair bitStep bitStep dsmBitStep (fun a b c dd => rfl)
    (bitsOfByte bp.1) (bitsOfByte bp.2) (by simp [bitsOfByte]) s1 s2

/-- C9: the interleaved double scalar multiplication of the unnamed
scalarmult variant and the sequential one of scalarmult.go (two ScalarMult
calls followed by the combining addition) return identical results on all
32-byte scalars and all points: the interleaved loop carries the two
accumulators through exactly the state transformations of the two separate
loops, and both variants end with the same combining addition. -/
theorem doubleScalarMult_variants_agree (k l : List Nat)
    (p q : ExtendedGroupElement) (hk : k.length = 32) (hl : l.length = 32) :
    DoubleScalarMultInterleaved k p l q = DoubleScalarMult k p l q := by
  unfold DoubleScalarMultInterleaved DoubleScalarMult ScalarMult
  rw [zip_foldl_pair byteStep byteStep dsmByteStep
    (fun a b c dd => dsmByteStep_pair a b (c, dd)) k l (hk.trans hl.symm)]

/-- C9 witness: the equivalence instantiated at two concrete scalars. -/
theorem doubleScalarMult_variants_agree_witness :
    (List.replicate 32 3).length = 32 ∧ (List.replicate 32 7).length = 32 ∧
    DoubleScalarMultInterleaved (List.replicate 32 3) Zero (List.replicate 32 7) Zero =
      DoubleScalarMult (List.replicate 32 3) Zero (List.replicate 32 7) Zero :=
  ⟨by decide, by decide,
    doubleScalarMult_variants_agree _ _ _ _ (by decide) (by decide)⟩

/-! ## Operation counts and bit order of ScalarMult -/

/-- Each byte contributes exactly eight bits to the loop. -/
theorem bitsOfByte_length (b : Nat) : (bitsOfByte b).length = 8 := by
  simp [bitsOfByte]

/-- The instrumented bit loop over any bit list: the result is the plain
fold, and the trace grows by one addition, one doubling and one conditional
move per bit, with the bits appended in processing order. -/
theorem foldl_bitStepT (bl : List Nat) :
    ∀ (s : ExtendedGroupElement × ExtendedGroupElement) (tr : OpTrace),
    bl.foldl bitStepT (s, tr) =
      (bl.foldl bitStep s,
       ⟨tr.adds + bl.length, tr.doubles + bl.length, tr.cmoves + bl.length,
        tr.bits ++ bl⟩) := by
  induction bl with
  | nil => intro s tr; simp
  | cons b t ih =>
    intro s tr
    simp only [List.foldl_cons, bitStepT, ih, List.length_cons]
    refine congrArg _ ?_
    simp only [OpTrace.mk.injEq, List.append_assoc, List.singleton_append]
    exact ⟨by omega, by omega, by omega, trivial⟩

/-- The instrumented byte loop: eight operations of each kind per byte, and
the trace lists the bits of the bytes in index order, each byte from its
low bit up. -/
theorem foldl_byteStepT (kk : List Nat) :
    ∀ (s : ExtendedGroupElement × ExtendedGroupElement) (tr : OpTrace),
    kk.foldl byteStepT (s, tr) =
      (kk.foldl byteStep s,
       ⟨tr.adds + 8 * kk.length, tr.doubles + 8 * kk.length, tr.cmoves + 8 * kk.length,
        tr.bits ++ kk.flatMap bitsOfByte⟩) := by
  induction kk with
  | nil => intro s tr; simp
  | cons b t ih =>
    intro s tr
    simp only [List.foldl_cons, byteStepT, foldl_bitStepT, ih, List.length_cons,
      List.flatMap_cons]
    refine congrArg _ ?_
    simp only [OpTrace.mk.injEq, List.append_assoc, bitsOfByte_length]
    exact ⟨by omega, by omega, by omega, trivial⟩

/-- Bit i of a byte plus 256 times anything is bit i of the byte, for bit
positions below eight. -/
theorem byteBit_add (c m i : Nat) ( _hc : c < 256) (hi : i < 8) :
    ((c + 256 * m) >>> i) &&& 1 = (c >>> i) &&& 1 := by
  have h256 : 256 * m = 2 ^ i * (2 ^ (8 - i) * m) := by
    rw [← Nat.mul_assoc, ← Nat.pow_add]
    have hie : i + (8 - i) = 8 := by omega
    rw [hie]
  have h2 : 2 ^ (8 - i) * m = 2 * (2 ^ (7 - i) * m) := by
    rw [← Nat.mul_assoc]
    congr 1
    have : 8 - i = (7 - i) + 1 := by omega
    rw [this, Nat.pow_succ]
    ring
  rw [Nat.and_one_is_mod, Nat.and_one_is_mod, Nat.shiftRight_eq_div_pow,
    Nat.shiftRight_eq_div_pow, h256,
    Nat.add_mul_div_left _ _ (Nat.pos_pow_of_pos i (by omega)), h2]
  omega

/-- The concatenated low-to-high bits of the bytes of a byte list are the
bits of its little-endian value, in order of increasing significance. -/
theorem flatMap_bitsOfByte_eq (kk : List Nat) (hb : ∀ x ∈ kk, x < 256) :
    kk.flatMap bitsOfByte =
      (List.range (8 * kk.length)).map fun i => (leNat kk >>> i) &&& 1 := by
  induction kk with
  | nil => simp
  | cons c t ih =>
    have hc : c < 256 := hb c (by simp)
    have ht : ∀ x ∈ t, x < 256 := fun x hx => hb x (by simp [hx])
    have hlen : 8 * (c :: t).length = 8 + 8 * t.length := by
      simp [List.length_cons]
      ring
    have hle : leNat (c :: t) = c + 256 * leNat t := rfl
    rw [List.flatMap_cons, ih ht, hlen, List.range_add, List.map_append, List.map_map]
    congr 1
    · unfold bitsOfByte
      refine List.map_congr_left fun i hi => ?_
      have hi8 : i < 8 := List.mem_range.mp hi
      rw [hle, byteBit_add c (leNat t) i hc hi8]
    · refine List.map_congr_left fun i hi => ?_
      show (leNat t >>> i) &&& 1 = (leNat (c :: t) >>> (8 + i)) &&& 1
      have h8 : leNat (c :: t) >>> 8 = leNat t := by
        rw [hle, Nat.shiftRight_eq_div_pow]
        show (c + 256 * leNat t) / 256 = leNat t
        rw [Nat.add_mul_div_left _ _ (by omega : (0:Nat) < 256), Nat.div_eq_of_lt hc]
        omega
      rw [Nat.shiftRight_add, h8]

/-- C7 counterexample: the claim as stated says the bit loop of ScalarMult
processes the 256 bits of the scalar most significant bit first.  At the
scalar 1 (first byte 1, the rest 0) the trace of conditional-move
conditions starts with the set bit, while the most-significant-first order
would end with it: the trace differs from the claimed order. -/
theorem scalarMult_bits_not_msb_first :
    ¬ ((ScalarMultTraced (1 :: List.replicate 31 0) Zero).2.bits =
       ((List.range 256).map
         fun i => ((leNat (1 :: List.replicate 31 0)) >>> i) &&& 1).reverse) := by
  decide

/-- C7 amended: ScalarMult performs exactly 256 point additions, 256 point
doublings and 256 conditional moves for every 32-byte scalar and every
point, and the conditional-move conditions are the 256 bits of the
little-endian scalar in order of increasing significance (least significant
bit first, not most significant first); the instrumented fold returns the
same point as ScalarMult. -/
theorem scalarMult_ops_and_bit_order (k : List Nat) (p : ExtendedGroupElement)
    (hk : k.length = 32) (hb : ∀ x ∈ k, x < 256) :
    (ScalarMultTraced k p).2.adds = 256 ∧
    (ScalarMultTraced k p).2.doubles = 256 ∧
    (ScalarMultTraced k p).2.cmoves = 256 ∧
    (ScalarMultTraced k p).2.bits =
      ((List.range 256).map fun i => (leNat k >>> i) &&& 1) ∧
    (ScalarMultTraced k p).1.1 = ScalarMult k p := by
  unfold ScalarMultTraced ScalarMult
  rw [foldl_byteStepT, flatMap_bitsOfByte_eq k hb, hk]
  exact ⟨by norm_num, by norm_num, by norm_num, by norm_num, rfl⟩

/-- C7 witness: the amended statement instantiated at a concrete scalar. -/
theorem scalarMult_ops_and_bit_order_witness :
    (List.replicate 32 5).length = 32 ∧ (∀ x ∈ List.replicate 32 5, x < 256) ∧
    ((ScalarMultTraced (List.replicate 32 5) Zero).2.adds = 256 ∧
     (ScalarMultTraced (List.replicate 32 5) Zero).2.doubles = 256 ∧
     (ScalarMultTraced (List.replicate 32 5) Zero).2.cmoves = 256 ∧
     (ScalarMultTraced (List.replicate 32 5) Zero).2.bits =
       ((List.range 256).map fun i => (leNat (List.replicate 32 5) >>> i) &&& 1) ∧
     (ScalarMultTraced (List.replicate 32 5) Zero).1.1 =
       ScalarMult (List.replicate 32 5) Zero) :=
  ⟨by decide, by decide,
    scalarMult_ops_and_bit_order (List.replicate 32 5) Zero (by decide) (by decide)⟩

/-! ## Point decoding: canonicity and the sign bit -/

/-- The prime constant as an integer is the cast of its natural form. -/
theorem pN_cast : ((Ed25519.pN : Nat) : Int) = Ed25519.p25519 := rfl

/-- C2 counterexample: the claim as stated says every 32-byte input whose
masked 255-bit value y is at least p is rejected by decodePoint.  The
little-endian encoding of p itself (bytes 237, thirty bytes 255, 127) has
y = p, yet decodePoint accepts it: no comparison of y against p exists in
the code, the field computations simply reduce y modulo p. -/
theorem decodePoint_accepts_y_eq_p :
    Ed25519.pN ≤ Ed25519.decodeY (237 :: List.replicate 30 255 ++ [127]) ∧
    (Ed25519.decodePoint (237 :: List.replicate 30 255 ++ [127])).isSome = true := by
  refine ⟨by decide, by decide!⟩

/-- C2 amended: decodePoint performs no canonicity check on y.  Its
acceptance decision and the x coordinate it returns depend on the masked
255-bit value y only through y modulo p (and on the sign bit); an input
with y at least p behaves exactly like its reduced counterpart, and only
the returned raw y value differs. -/
theorem decodePoint_depends_on_y_mod_p (in1 in2 : List Nat)
    (hy : Ed25519.decodeY in1 % Ed25519.pN = Ed25519.decodeY in2 % Ed25519.pN)
    (hs : Ed25519.signBit in1 = Ed25519.signBit in2) :
    (Ed25519.decodePoint in1).isSome = (Ed25519.decodePoint in2).isSome ∧
    (Ed25519.decodePoint in1).map Prod.fst = (Ed25519.decodePoint in2).map Prod.fst := by
  have hyz : ((Ed25519.decodeY in1 : Nat) : Int) % Ed25519.p25519 =
      ((Ed25519.decodeY in2 : Nat) : Int) % Ed25519.p25519 := by
    rw [← pN_cast]
    exact_mod_cast hy
  have hu : ((Ed25519.decodeY in1 : Nat) : Int) * (Ed25519.decodeY in1 : Nat) % Ed25519.p25519 =
      ((Ed25519.decodeY in2 : Nat) : Int) * (Ed25519.decodeY in2 : Nat) % Ed25519.p25519 := by
    rw [Int.mul_emod, hyz, ← Int.mul_emod]
  simp only [Ed25519.decodePoint]
  rw [hu, hs]
  cases Ed25519.decodeAux ((Ed25519.decodeY in2 : Nat) * (Ed25519.decodeY in2 : Nat) %
    Ed25519.p25519) (Ed25519.signBit in2) <;> simp

/-- C2 witness: the amended statement applied to the encoding of p and the
all-zero encoding, whose y values agree modulo p. -/
theorem decodePoint_depends_on_y_mod_p_witness :
    Ed25519.decodeY (237 :: List.replicate 30 255 ++ [127]) % Ed25519.pN =
      Ed25519.decodeY (List.replicate 32 0) % Ed25519.pN ∧
    Ed25519.signBit (237 :: List.replicate 30 255 ++ [127]) =
      Ed25519.signBit (List.replicate 32 0) ∧
    ((Ed25519.decodePoint (237 :: List.replicate 30 255 ++ [127])).isSome =
       (Ed25519.decodePoint (List.replicate 32 0)).isSome ∧
     (Ed25519.decodePoint (237 :: List.replicate 30 255 ++ [127])).map Prod.fst =
       (Ed25519.decodePoint (List.replicate 32 0)).map Prod.fst) :=
  ⟨by decide, by decide,
    decodePoint_depends_on_y_mod_p _ _ (by decide) (by decide)⟩

/-! ## Point decoding and the sign bit -/

/-- Flipping bit 7 of a byte leaves its low seven bits unchanged. -/
theorem byteMask_flip : ∀ b < 256, (b ^^^ 128) &&& 127 = b &&& 127 := by decide

/-- Flipping bit 7 of a byte complements its top bit. -/
theorem signBit_flip_byte : ∀ b < 256, (b ^^^ 128) >>> 7 = 1 - (b >>> 7) := by decide

/-- The top bit of a byte is at most one. -/
theorem signBit_byte_le : ∀ b < 256, b >>> 7 ≤ 1 := by decide

/-- Flipping the sign bit does not change the masked 255-bit y value. -/
theorem decodeY_flipSign (inb : List Nat) (h32 : inb.length = 32)
    (hb : inb.getD 31 0 < 256) :
    Ed25519.decodeY (Ed25519.flipSign inb) = Ed25519.decodeY inb := by
  have h31 : 31 < (inb.set 31 (inb.getD 31 0 ^^^ 128)).length := by
    rw [List.length_set, h32]
    omega
  have hg : (inb.set 31 (inb.getD 31 0 ^^^ 128)).getD 31 0 = inb.getD 31 0 ^^^ 128 := by
    rw [List.getD_eq_getElem _ _ h31, List.getElem_set_self]
  have ht : List.take 31 (inb.set 31 (inb.getD 31 0 ^^^ 128)) = List.take 31 inb := by
    rw [List.set_take, List.set_eq_of_length_le (le_trans (List.length_take_le _ _) (by omega))]
  unfold Ed25519.decodeY Ed25519.flipSign
  rw [ht, hg, byteMask_flip _ hb]

/-- Flipping the sign bit complements the sign read by decodePoint. -/
theorem signBit_flipSign (inb : List Nat) (h32 : inb.length = 32)
    (hb : inb.getD 31 0 < 256) :
    Ed25519.signBit (Ed25519.flipSign inb) = 1 - Ed25519.signBit inb := by
  have h31 : 31 < (inb.set 31 (inb.getD 31 0 ^^^ 128)).length := by
    rw [List.length_set, h32]
    omega
  have hg : (inb.set 31 (inb.getD 31 0 ^^^ 128)).getD 31 0 = inb.getD 31 0 ^^^ 128 := by
    rw [List.getD_eq_getElem _ _ h31, List.getElem_set_self]
  unfold Ed25519.signBit Ed25519.flipSign
  rw [hg, signBit_flip_byte _ hb]

/-- The acceptance decision of decodeAux ignores the sign bit, and
complementing the sign bit replaces the returned root x by p - x. -/
theorem decodeAux_signFlip (u0 : Int) (s : Nat) (hs : s ≤ 1) (x : Int)
    (h : Ed25519.decodeAux u0 s = some x) :
    Ed25519.decodeAux u0 (1 - s) = some (-x + Ed25519.p25519) := by
  unfold Ed25519.decodeAux at h ⊢
  by_cases hne : (Ed25519.decodeBC u0).2.1 ≠ (Ed25519.decodeBC u0).2.2
  · rw [if_pos hne] at h
    exact absurd h (by simp)
  · rw [if_neg hne] at h ⊢
    have hx : (if ((Ed25519.decodeBC u0).1 % 2).toNat ≠ s
        then -(Ed25519.decodeBC u0).1 + Ed25519.p25519 else (Ed25519.decodeBC u0).1) = x :=
      Option.some_inj.mp h
    have hbt : ((Ed25519.decodeBC u0).1 % 2).toNat = 0 ∨
        ((Ed25519.decodeBC u0).1 % 2).toNat = 1 := by
      rcases Int.emod_two_eq (Ed25519.decodeBC u0).1 with h0 | h0 <;> simp [h0]
    refine congrArg some ?_
    rcases hbt with h0 | h0 <;> interval_cases s <;>
      simp only [h0] at hx ⊢ <;> simp at hx ⊢ <;> omega

/-- C6 amended: flipping the sign bit of a 32-byte encoding never changes
whether decoding succeeds; when the original decodes to (x, y), the flipped
encoding decodes to (p - x, y), which differs from (x, y) as a pair of
integers (p is odd, so p - x = x is impossible).  The two decoded pairs
describe the same curve point exactly when x is congruent to -x modulo p,
which happens for the two encodings with y * y congruent to 1, where the
decoded roots are 0 and p (the non-canonical representative of zero): on
those inputs the flipped encoding decodes to the same point, so the claim
as stated fails; for every other input the decoded point is a genuinely
different point with the same y and the opposite x-parity. -/
theorem decodePoint_flipSign (inb : List Nat) (h32 : inb.length = 32)
    (hb : inb.getD 31 0 < 256) (x y : Int)
    (hx : Ed25519.decodePoint inb = some (x, y)) :
    Ed25519.decodePoint (Ed25519.flipSign inb) = some (-x + Ed25519.p25519, y) ∧
    -x + Ed25519.p25519 ≠ x := by
  simp only [Ed25519.decodePoint] at hx ⊢
  rw [decodeY_flipSign inb h32 hb, signBit_flipSign inb h32 hb]
  obtain ⟨x0, hx0, hpair⟩ := Option.map_eq_some'.mp hx
  obtain ⟨hx1, hy1⟩ := Prod.mk.injEq .. ▸ hpair
  constructor
  · rw [decodeAux_signFlip _ _ (show Ed25519.signBit inb ≤ 1 from signBit_byte_le _ hb) x0 hx0]
    simp [hx1, hy1]
  · intro hcon
    have hodd : Ed25519.p25519 = 2 * x := by omega
    rw [show Ed25519.p25519 =
      (57896044618658097711785492504343953926634992332820282019728792003956564819949 : Int)
      from rfl] at hodd
    omega

/-- C6 counterexample: the claim as stated says the flipped encoding never
decodes to the same point.  The encoding of the point (0, 1) is byte 1
followed by 31 zero bytes; with the sign bit flipped it still decodes, to
(p, 1): the x coordinates 0 and p are congruent modulo p, so this is the
same curve point, returned in a non-canonical representation. -/
theorem decodePoint_flipSign_same_point :
    Ed25519.decodePoint (1 :: List.replicate 31 0) = some (0, 1) ∧
    Ed25519.decodePoint (Ed25519.flipSign (1 :: List.replicate 31 0)) =
      some (Ed25519.p25519, 1) ∧
    Ed25519.p25519 % Ed25519.p25519 = (0 : Int) % Ed25519.p25519 := by
  refine ⟨by decide!, by decide!, by decide⟩

/-- C6 witness: the amended statement applied to the valid public key pk0. -/
theorem decodePoint_flipSign_witness :
    pk0.length = 32 ∧ pk0.getD 31 0 < 256 ∧
    Ed25519.decodePoint pk0 = some (Ax0, Ay0) ∧
    (Ed25519.decodePoint (Ed25519.flipSign pk0) = some (-Ax0 + Ed25519.p25519, Ay0) ∧
     -Ax0 + Ed25519.p25519 ≠ Ax0) :=
  ⟨by decide, by decide, by decide!,
    decodePoint_flipSign pk0 (by decide) (by decide) Ax0 Ay0 (by decide!)⟩

/-! ## The structure of Sign -/

/-- The clamping touches only bytes 0 and 31, so the upper half of the
digest is unchanged. -/
theorem drop32_clampDigest (dg : List Nat) :
    List.drop 32 (Ed25519.clampDigest dg) = List.drop 32 dg := by
  simp [Ed25519.clampDigest, List.drop_set]

/-- leBytes produces exactly the requested number of bytes. -/
theorem leBytes_length (n l : Nat) : (leBytes n l).length = l := by
  induction l generalizing n with
  | zero => rfl
  | succ l ih => simp [leBytes, ih]

/-- Reading back the little-endian bytes of a number below the range bound
recovers the number. -/
theorem leNat_leBytes (n l : Nat) (h : n < 256 ^ l) : leNat (leBytes n l) = n := by
  induction l generalizing n with
  | zero =>
    simp only [Nat.pow_zero] at h
    interval_cases n
    rfl
  | succ l ih =>
    show leNat (n % 256 :: leBytes (n / 256) l) = n
    have hd : n / 256 < 256 ^ l := by
      rw [Nat.div_lt_iff_lt_mul (by omega : (0:Nat) < 256)]
      calc n < 256 ^ (l + 1) := h
        _ = 256 ^ l * 256 := by ring
    show n % 256 + 256 * leNat (leBytes (n / 256) l) = n
    rw [ih _ hd]
    omega

/-- An encoded point is exactly 32 bytes. -/
theorem encodePoint_length (px py : Int) : (Ed25519.encodePoint px py).length = 32 := by
  unfold Ed25519.encodePoint
  by_cases h : px % 2 = 1 <;> simp [h, leBytes_length]

/-- C5: for every 64-byte private key and every message, Sign returns
Rbytes followed by the 32-byte little-endian encoding of (k a + r) mod the
group order, where a is the scalar read from the clamped lower half of the
digest of the seed, r is the reduction of the digest of the upper half
followed by the message, Rbytes encodes the affine point r B, and k is the
reduction of the digest of Rbytes, the stored public key and the
message. -/
theorem Sign_spec (priv msg : List Nat) ( _hpriv : priv.length = 64)
    (a r kh : Int) (Rbytes : List Nat)
    (ha : a = Ed25519.scalarFrom32Bytes
      (List.take 32 (Ed25519.clampDigest (sha512 (List.take 32 priv)))))
    (hr : r = Ed25519.scalarFrom64Bytes
      (sha512 (List.drop 32 (sha512 (List.take 32 priv)) ++ msg)))
    (hR : Rbytes = Ed25519.encodePoint
      (Ed25519.toAffine (Ed25519.scalarMult r Ed25519.bX Ed25519.bY)).1
      (Ed25519.toAffine (Ed25519.scalarMult r Ed25519.bX Ed25519.bY)).2)
    (hk : kh = Ed25519.scalarFrom64Bytes (sha512 (Rbytes ++ List.drop 32 priv ++ msg))) :
    Ed25519.Sign priv msg = Rbytes ++ Ed25519.encodeScalar ((kh * a + r) % Ed25519.order) := by
  subst ha hr hR hk
  simp only [Ed25519.Sign]
  rw [drop32_clampDigest]

/-- C5 witness: the statement instantiated at the all-zero 64-byte private
key and the empty message. -/
theorem Sign_spec_witness :
    (List.replicate 64 0).length = 64 ∧
    Ed25519.Sign (List.replicate 64 0) [] =
      (Ed25519.encodePoint
        (Ed25519.toAffine (Ed25519.scalarMult (Ed25519.scalarFrom64Bytes (sha512 (List.drop 32 (sha512 (List.take 32 (List.replicate 64 0))) ++ []))) Ed25519.bX Ed25519.bY)).1
        (Ed25519.toAffine (Ed25519.scalarMult (Ed25519.scalarFrom64Bytes (sha512 (List.drop 32 (sha512 (List.take 32 (List.replicate 64 0))) ++ []))) Ed25519.bX Ed25519.bY)).2)
      ++ Ed25519.encodeScalar
        (((Ed25519.scalarFrom64Bytes (sha512 ((Ed25519.encodePoint
        (Ed25519.toAffine (Ed25519.scalarMult (Ed25519.scalarFrom64Bytes (sha512 (List.drop 32 (sha512 (List.take 32 (List.replicate 64 0))) ++ []))) Ed25519.bX Ed25519.bY)).1
        (Ed25519.toAffine (Ed25519.scalarMult (Ed25519.scalarFrom64Bytes (sha512 (List.drop 32 (sha512 (List.take 32 (List.replicate 64 0))) ++ []))) Ed25519.bX Ed25519.bY)).2) ++ List.drop 32 (List.replicate 64 0) ++ []))) * (Ed25519.scalarFrom32Bytes (List.take 32 (Ed25519.clampDigest (sha512 (List.take 32 (List.replicate 64 0)))))) + (Ed25519.scalarFrom64Bytes (sha512 (List.drop 32 (sha512 (List.take 32 (List.replicate 64 0))) ++ [])))) % Ed25519.order) :=
  ⟨by decide, Sign_spec _ _ (by decide) _ _ _ _ rfl rfl rfl rfl⟩

/-! ## The scalar half of every signature is reduced -/

/-- The scalar half of an encoded-point-and-scalar concatenation reads back
as the scalar, for scalars in the reduced range. -/
theorem leNat_drop32_encode (px py s : Int) (h0 : 0 ≤ s) (h1 : s < Ed25519.order) :
    leNat (List.drop 32 (Ed25519.encodePoint px py ++ Ed25519.encodeScalar s)) <
      Ed25519.orderN := by
  rw [show (32:Nat) = (Ed25519.encodePoint px py).length from (encodePoint_length px py).symm,
    List.drop_left]
  unfold Ed25519.encodeScalar
  have horder : (Ed25519.orderN : Int) = Ed25519.order := rfl
  have hlt : s.toNat < Ed25519.orderN := by
    have := h1
    rw [← horder] at this
    omega
  have hpow : (256 : Nat) ^ 32 =
      115792089237316195423570985008687907853269984665640564039457584007913129639936 := by
    norm_num
  have hon : Ed25519.orderN <
      115792089237316195423570985008687907853269984665640564039457584007913129639936 := by
    decide
  rw [leNat_leBytes _ _ (by omega)]
  exact hlt

/-- C10: the last 32 bytes of every signature produced by Sign encode an
integer strictly below the group order: the scalar written is reduced
modulo the order before encoding.  (Verify, by contrast, reduces the scalar
half of incoming signatures rather than rejecting unreduced ones.) -/
theorem sign_scalar_reduced (priv msg : List Nat) :
    leNat (List.drop 32 (Ed25519.Sign priv msg)) < Ed25519.orderN := by
  simp only [Ed25519.Sign]
  exact leNat_drop32_encode _ _ _
    (Int.emod_nonneg _ (by decide)) (Int.emod_lt_of_pos _ (by decide))

/-! ## The structure of Verify -/

/-- When the public key decodes to (Ax, Ay), Verify reduces to the final
byte comparison: the first 32 signature bytes against the encoding of the
affine form of S B plus the negation of k A, with S the reduced scalar
half and k the reduced digest of the first 32 signature bytes, the public
key and the message. -/
theorem Verify_decode_some (pk msg sig : List Nat) (Ax Ay : Int)
    (h : Ed25519.decodePoint pk = some (Ax, Ay)) :
    Ed25519.Verify pk msg sig = decide (List.take 32 sig =
      Ed25519.encodePoint
      (Ed25519.toAffine (Ed25519.pointAdd
        (Ed25519.scalarMult (Ed25519.scalarFrom32Bytes (List.drop 32 sig)) Ed25519.bX Ed25519.bY)
        (Ed25519.negXT (Ed25519.scalarMult (Ed25519.scalarFrom64Bytes
          (sha512 (List.take 32 sig ++ pk ++ msg))) Ax Ay)))).1
      (Ed25519.toAffine (Ed25519.pointAdd
        (Ed25519.scalarMult (Ed25519.scalarFrom32Bytes (List.drop 32 sig)) Ed25519.bX Ed25519.bY)
        (Ed25519.negXT (Ed25519.scalarMult (Ed25519.scalarFrom64Bytes
          (sha512 (List.take 32 sig ++ pk ++ msg))) Ax Ay)))).2) := by
  unfold Ed25519.Verify
  rw [h]

/-- C4: for every public key that decodes to a point (Ax, Ay), every
message and every signature, Verify accepts exactly when the first 32
signature bytes equal the encoding of S B - k A (computed as S B plus the
x- and t-negated k A), where S is the reduced scalar half of the signature
and k the reduced digest of the first 32 signature bytes, the public key
and the message. -/
theorem verify_accepts_iff (pk msg sig : List Nat) (Ax Ay : Int)
    (h : Ed25519.decodePoint pk = some (Ax, Ay)) :
    (Ed25519.Verify pk msg sig = true ↔ List.take 32 sig =
      Ed25519.encodePoint
      (Ed25519.toAffine (Ed25519.pointAdd
        (Ed25519.scalarMult (Ed25519.scalarFrom32Bytes (List.drop 32 sig)) Ed25519.bX Ed25519.bY)
        (Ed25519.negXT (Ed25519.scalarMult (Ed25519.scalarFrom64Bytes
          (sha512 (List.take 32 sig ++ pk ++ msg))) Ax Ay)))).1
      (Ed25519.toAffine (Ed25519.pointAdd
        (Ed25519.scalarMult (Ed25519.scalarFrom32Bytes (List.drop 32 sig)) Ed25519.bX Ed25519.bY)
        (Ed25519.negXT (Ed25519.scalarMult (Ed25519.scalarFrom64Bytes
          (sha512 (List.take 32 sig ++ pk ++ msg))) Ax Ay)))).2) := by
  rw [Verify_decode_some pk msg sig Ax Ay h, decide_eq_true_iff]

/-- C4 witness: the equivalence instantiated at the concrete key pk0 and
the concrete signature sig0 of the empty message. -/
theorem verify_accepts_iff_witness :
    Ed25519.decodePoint pk0 = some (Ax0, Ay0) ∧
    (Ed25519.Verify pk0 [] sig0 = true ↔ List.take 32 sig0 =
      Ed25519.encodePoint
      (Ed25519.toAffine (Ed25519.pointAdd
        (Ed25519.scalarMult (Ed25519.scalarFrom32Bytes (List.drop 32 sig0)) Ed25519.bX Ed25519.bY)
        (Ed25519.negXT (Ed25519.scalarMult (Ed25519.scalarFrom64Bytes
          (sha512 (List.take 32 sig0 ++ pk0 ++ ([] : List Nat)))) Ax0 Ay0)))).1
      (Ed25519.toAffine (Ed25519.pointAdd
        (Ed25519.scalarMult (Ed25519.scalarFrom32Bytes (List.drop 32 sig0)) Ed25519.bX Ed25519.bY)
        (Ed25519.negXT (Ed25519.scalarMult (Ed25519.scalarFrom64Bytes
          (sha512 (List.take 32 sig0 ++ pk0 ++ ([] : List Nat)))) Ax0 Ay0)))).2) :=
  ⟨by decide!, verify_accepts_iff pk0 [] sig0 Ax0 Ay0 (by decide!)⟩

/-! ## Verify and unreduced scalar halves -/

/-- C1 amended: Verify performs no range check on the scalar half of the
signature; it reduces the 32-byte little-endian value modulo the group
order (scalarFrom32Bytes), so its verdict is unchanged whenever the first
32 bytes agree and the scalar halves are congruent modulo the order.  In
particular a signature whose scalar half is at least the order is not
rejected outright. -/
theorem Verify_scalar_congruence (pk msg sig sig2 : List Nat)
    (hR : List.take 32 sig = List.take 32 sig2)
    (hS : (leNat (List.drop 32 sig) : Int) % Ed25519.order =
          (leNat (List.drop 32 sig2) : Int) % Ed25519.order) :
    Ed25519.Verify pk msg sig = Ed25519.Verify pk msg sig2 := by
  unfold Ed25519.Verify Ed25519.scalarFrom32Bytes Ed25519.scalarFrom64Bytes
  rw [hR, hS]

/-- C1 witness: the congruence instantiated at the honest signature sig0
and its malleated form sigM, whose scalar halves differ by the order. -/
theorem Verify_scalar_congruence_witness :
    List.take 32 sig0 = List.take 32 sigM ∧
    (leNat (List.drop 32 sig0) : Int) % Ed25519.order =
      (leNat (List.drop 32 sigM) : Int) % Ed25519.order ∧
    Ed25519.Verify pk0 [] sig0 = Ed25519.Verify pk0 [] sigM :=
  ⟨by decide, by decide,
    Verify_scalar_congruence pk0 [] sig0 sigM (by decide) (by decide)⟩

/-- C1 counterexample: the claim as stated says Verify returns false for
every signature whose last 32 bytes encode a value at least the group
order.  The signature sigM carries the scalar of sig0 plus the order (a
value above the order), yet Verify accepts it for the public key pk0 and
the empty message: scalarFrom32Bytes reduces the scalar half modulo the
order instead of rejecting it, and the verification equation then holds
exactly as it does for sig0. -/
theorem Verify_accepts_unreduced_scalar :
    Ed25519.orderN ≤ leNat (List.drop 32 sigM) ∧
    Ed25519.Verify pk0 [] sigM = true := by
  constructor
  · decide
  · decide!

/-! ## Special cases of the edwards25519 ScalarMult

The general statement that ScalarMult computes the k-fold group sum of its
input point needs the group law of the curve; the two special cases below
are provable without it.  A zero bit leaves the accumulator untouched, so
the zero scalar returns the identity representation exactly; the scalar one
returns the identity-plus-P sum, which equals P as a projective point (the
cross-multiplied equalities below state equality of x = X/Z and y = Y/Z
without divisions). -/

/-- A zero condition bit leaves the accumulator component unchanged. -/
theorem bitStep_fst_zero (st : ExtendedGroupElement × ExtendedGroupElement) :
    (bitStep st 0).1 = st.1 := rfl

/-- A run of zero condition bits leaves the accumulator unchanged. -/
theorem foldl_bitStep_fst_zero (bl : List Nat) (h : ∀ b ∈ bl, b = 0) :
    ∀ st : ExtendedGroupElement × ExtendedGroupElement,
    (bl.foldl bitStep st).1 = st.1 := by
  induction bl with
  | nil => intro st; rfl
  | cons b t ih =>
    intro st
    have hb : b = 0 := h b (by simp)
    have ht : ∀ b ∈ t, b = 0 := fun b hbt => h b (by simp [hbt])
    rw [List.foldl_cons, ih ht, hb, bitStep_fst_zero]

/-- A zero byte leaves the accumulator unchanged. -/
theorem byteStep_fst_zero (st : ExtendedGroupElement × ExtendedGroupElement) :
    (byteStep st 0).1 = st.1 := by
  unfold byteStep
  refine foldl_bitStep_fst_zero _ ?_ st
  decide

/-- A run of zero bytes leaves the accumulator unchanged. -/
theorem foldl_byteStep_fst_zero (k : List Nat) (h : ∀ b ∈ k, b = 0) :
    ∀ st : ExtendedGroupElement × ExtendedGroupElement,
    (k.foldl byteStep st).1 = st.1 := by
  induction k with
  | nil => intro st; rfl
  | cons b t ih =>
    intro st
    have hb : b = 0 := h b (by simp)
    have ht : ∀ b ∈ t, b = 0 := fun b hbt => h b (by simp [hbt])
    rw [List.foldl_cons, ih ht, hb]
    -- the accumulator after a zero byte is unchanged, the base point moved on
    have : (byteStep st 0).1 = st.1 := byteStep_fst_zero st
    cases hbp : byteStep st 0 with
    | mk o p => rw [hbp] at this; exact this

/-- ScalarMult of the zero scalar is the identity representation, exactly:
the conditional move never fires, so the accumulator never changes from its
initial value. -/
theorem scalarMult_zero_scalar (p : ExtendedGroupElement) :
    ScalarMult (List.replicate 32 0) p = Edwards25519.Zero := by
  unfold ScalarMult
  exact foldl_byteStep_fst_zero _ (fun b hb => List.eq_of_mem_replicate hb) _

/-- ScalarMult of the scalar one returns the sum of the identity and P,
which is the point P itself in projective terms: its x and y coordinates
agree with those of P after cross-multiplication by the Z coordinates. -/
theorem scalarMult_one_scalar (p : ExtendedGroupElement) :
    (ScalarMult (1 :: List.replicate 31 0) p).X * p.Z =
      p.X * (ScalarMult (1 :: List.replicate 31 0) p).Z ∧
    (ScalarMult (1 :: List.replicate 31 0) p).Y * p.Z =
      p.Y * (ScalarMult (1 :: List.replicate 31 0) p).Z := by
  have h1 : ScalarMult (1 :: List.replicate 31 0) p =
      ToExtended (geAdd Edwards25519.Zero (ToCached p)) := by
    unfold ScalarMult
    rw [List.foldl_cons,
      foldl_byteStep_fst_zero _ (fun b hb => List.eq_of_mem_replicate hb)]
    unfold byteStep
    rw [show bitsOfByte 1 = [1, 0, 0, 0, 0, 0, 0, 0] from by decide, List.foldl_cons,
      foldl_bitStep_fst_zero _ (by decide)]
    rfl
  rw [h1]
  unfold ToExtended geAdd ToCached Edwards25519.Zero
  constructor <;> ring
